import Mathlib

/-!
Verification of the decision-theory core of `artemkaxdxd/kpi-assignments`
(files `SEM10/tpr-4/main.go`, `SEM10/tpr-3/main.go`, and the unnamed
Wald/MaxiMax/Hurwicz program).

The Go programs are embedded shallowly:
* Go `map[string]map[string]int` rank tables become total functions
  `String → String → Int` (a missing entry is the Go zero value `0`).
* Go `float64` utilities become `ℚ`; the programs only add, subtract,
  multiply, divide and compare, so the rational model is exact.
* `sort.Strings` and the comparator sorts are modelled with
  `List.insertionSort`, which produces a sorted permutation — exactly the
  contract the Go sort library guarantees (Go's `sort.Slice` is in
  addition *unstable*, and the tpr-3 ranking iterates an unordered Go
  map before sorting; that sequence is therefore taken as an explicit
  input of the sorting step).
-/

namespace KpiDecision

/-- State of `ParetoSystem` in `SEM10/tpr-4/main.go`: alternative names,
expert names, and the rank table `rankings[expert][alt]`.  The Go map is
modelled as a total function; a pair never written holds the Go zero
value `0`. -/
structure ParetoSystem where
  alts : List String
  experts : List String
  rank : String → String → Int

/-- The expert loop inside `BuildDominance` for one ordered pair:
`r1`/`r2` give the ranks of `a1`/`a2` under each expert.  The loop keeps
the flags `better` and `notWorse`; on `r1 > r2` it sets `notWorse`
to `false` and breaks, on `r1 < r2` it sets `better`.  The returned pair
is `(better, notWorse)` at loop exit. -/
def dominanceLoop (r1 r2 : String → Int) : List String → Bool → Bool × Bool
  | [], better => (better, true)
  | e :: es, better =>
    if r1 e > r2 e then (better, false)
    else dominanceLoop r1 r2 es (better || decide (r1 e < r2 e))

/-- Entry `dominance[a1][a2]` of the matrix built by
`ParetoSystem.BuildDominance`: pairs with `a1 == a2` are skipped (the Go
map keeps the zero value `false`), otherwise the entry is
`notWorse && better` after the expert loop. -/
def dominates (p : ParetoSystem) (a1 a2 : String) : Bool :=
  if a1 = a2 then false
  else
    let res := dominanceLoop (fun e => p.rank e a1) (fun e => p.rank e a2) p.experts false
    res.2 && res.1

/-- Result of `ParetoSystem.ParetoSet`: the alternatives no other
alternative dominates, collected in declaration order and then passed
through `sort.Strings` (modelled by an insertion sort, which returns the
same sorted list). -/
def ParetoSet (p : ParetoSystem) : List String :=
  List.insertionSort (fun a b => a ≤ b)
    (p.alts.filter (fun a => ! (p.alts.any (fun b => dominates p b a))))

/-- The rank-table of the worked scenario in the specification:
alternatives A, B, C; experts E1 with A=1, B=2, C=3 and E2 with
A=1, B=3, C=2.  Any other cell is the Go zero value 0. -/
def demoRank (e a : String) : Int :=
  if e = "E1" then (if a = "A" then 1 else if a = "B" then 2 else if a = "C" then 3 else 0)
  else if e = "E2" then (if a = "A" then 1 else if a = "B" then 3 else if a = "C" then 2 else 0)
  else 0

/-- The worked scenario of the specification as a `ParetoSystem`. -/
def demoPareto : ParetoSystem :=
  ⟨["A", "B", "C"], ["E1", "E2"], demoRank⟩

/-- A rank table on which dominance chains (A over B over C) occur:
both experts rank A=1, B=2, C=3. -/
def chainRank (e a : String) : Int :=
  if e = "E1" ∨ e = "E2" then (if a = "A" then 1 else if a = "B" then 2 else if a = "C" then 3 else 0)
  else 0

/-- A system with a two-step dominance chain, used to exhibit
transitivity on concrete data. -/
def chainPareto : ParetoSystem :=
  ⟨["A", "B", "C"], ["E1", "E2"], chainRank⟩

lemma dominanceLoop_and_iff (r1 r2 : String → Int) :
    ∀ (es : List String) (better : Bool),
      (((dominanceLoop r1 r2 es better).2 && (dominanceLoop r1 r2 es better).1) = true ↔
        ((∀ e ∈ es, r1 e ≤ r2 e) ∧ (better = true ∨ ∃ e ∈ es, r1 e < r2 e)))
  | [], better => by simp [dominanceLoop]
  | e :: es, better => by
    by_cases h : r1 e > r2 e
    · simp only [dominanceLoop, if_pos h]
      constructor
      · intro hcon
        simp at hcon
      · rintro ⟨hall, -⟩
        exact absurd (hall e (by simp)) (not_le.mpr h)
    · have hle : r1 e ≤ r2 e := not_lt.mp h
      simp only [dominanceLoop, if_neg h]
      rw [dominanceLoop_and_iff r1 r2 es (better || decide (r1 e < r2 e))]
      simp only [List.mem_cons, Bool.or_eq_true, decide_eq_true_eq]
      constructor
      · rintro ⟨hall, hb⟩
        refine ⟨fun x hx => ?_, ?_⟩
        · rcases hx with rfl | hx
          · exact hle
          · exact hall x hx
        · rcases hb with (hb | hlt) | ⟨x, hx, hlt⟩
          · exact Or.inl hb
          · exact Or.inr ⟨e, Or.inl rfl, hlt⟩
          · exact Or.inr ⟨x, Or.inr hx, hlt⟩
      · rintro ⟨hall, hb⟩
        refine ⟨fun x hx => hall x (Or.inr hx), ?_⟩
        rcases hb with hb | ⟨x, rfl | hx, hlt⟩
        · exact Or.inl (Or.inl hb)
        · exact Or.inl (Or.inr hlt)
        · exact Or.inr ⟨x, hx, hlt⟩

lemma dominates_eq_true (p : ParetoSystem) (a1 a2 : String) :
    dominates p a1 a2 = true ↔
      a1 ≠ a2 ∧ (∀ e ∈ p.experts, p.rank e a1 ≤ p.rank e a2) ∧
        (∃ e ∈ p.experts, p.rank e a1 < p.rank e a2) := by
  by_cases h : a1 = a2
  · simp [dominates, h]
  · rw [dominates, if_neg h]
    rw [dominanceLoop_and_iff]
    simp [h]

lemma dominates_self (p : ParetoSystem) (a : String) : dominates p a a = false := by
  simp [dominates]

lemma dominates_not_both (p : ParetoSystem) (a b : String)
    (h1 : dominates p a b = true) (h2 : dominates p b a = true) : False := by
  rw [dominates_eq_true] at h1 h2
  obtain ⟨-, hle, -⟩ := h2
  obtain ⟨-, -, e, he, hlt⟩ := h1
  exact absurd (hle e he) (not_le.mpr hlt)

lemma dominates_trans (p : ParetoSystem) (a b c : String)
    (h1 : dominates p a b = true) (h2 : dominates p b c = true) :
    dominates p a c = true := by
  rw [dominates_eq_true] at h1 h2 ⊢
  obtain ⟨hab, hle1, e, he, hlt1⟩ := h1
  obtain ⟨hbc, hle2, f, hf, hlt2⟩ := h2
  refine ⟨?_, fun x hx => le_trans (hle1 x hx) (hle2 x hx), e, he,
    lt_of_lt_of_le hlt1 (hle2 e he)⟩
  rintro rfl
  exact absurd (hle2 e he) (not_le.mpr hlt1)

/-- C1: for distinct alternatives of a complete rank matrix, the built
dominance matrix marks `a1` as dominating `a2` exactly when every expert
ranks `a1` at most as high (numerically) as `a2` and at least one expert
ranks `a1` strictly lower. -/
theorem dominance_componentwise_rule (p : ParetoSystem) (a1 a2 : String)
    (h1 : a1 ∈ p.alts) (h2 : a2 ∈ p.alts) (hne : a1 ≠ a2) :
    dominates p a1 a2 = true ↔
      (∀ e ∈ p.experts, p.rank e a1 ≤ p.rank e a2) ∧
        (∃ e ∈ p.experts, p.rank e a1 < p.rank e a2) := by
  rw [dominates_eq_true]
  simp [hne]

theorem dominance_componentwise_rule_witness :
    dominates demoPareto "A" "B" = true ↔
      (∀ e ∈ demoPareto.experts, demoPareto.rank e "A" ≤ demoPareto.rank e "B") ∧
        (∃ e ∈ demoPareto.experts, demoPareto.rank e "A" < demoPareto.rank e "B") :=
  dominance_componentwise_rule demoPareto "A" "B" (by decide) (by decide) (by decide)

/-- C6: for distinct alternatives the dominance matrix is never marked in
both directions, and when every expert ties the two alternatives neither
entry is marked. -/
theorem dominance_antisymmetry_and_ties (p : ParetoSystem) (a b : String)
    (hab : a ≠ b) :
    ¬(dominates p a b = true ∧ dominates p b a = true) ∧
      ((∀ e ∈ p.experts, p.rank e a = p.rank e b) →
        dominates p a b = false ∧ dominates p b a = false) := by
  constructor
  · rintro ⟨h1, h2⟩
    exact dominates_not_both p a b h1 h2
  · intro htie
    constructor <;>
    · rw [← Bool.not_eq_true, dominates_eq_true]
      rintro ⟨-, -, e, he, hlt⟩
      rw [htie e he] at hlt
      exact lt_irrefl _ hlt

theorem dominance_antisymmetry_and_ties_witness :
    ¬(dominates demoPareto "B" "C" = true ∧ dominates demoPareto "C" "B" = true) ∧
      ((∀ e ∈ demoPareto.experts, demoPareto.rank e "B" = demoPareto.rank e "C") →
        dominates demoPareto "B" "C" = false ∧ dominates demoPareto "C" "B" = false) :=
  dominance_antisymmetry_and_ties demoPareto "B" "C" (by decide)

/-- C10: the computed dominance relation is a strict partial order — no
alternative dominates itself, and dominance is transitive. -/
theorem dominance_irrefl_and_trans (p : ParetoSystem) :
    (∀ a, dominates p a a = false) ∧
      (∀ a b c, dominates p a b = true → dominates p b c = true →
        dominates p a c = true) :=
  ⟨fun a => dominates_self p a, fun a b c h1 h2 => dominates_trans p a b c h1 h2⟩

theorem dominance_irrefl_and_trans_witness :
    dominates chainPareto "A" "C" = true :=
  (dominance_irrefl_and_trans chainPareto).2 "A" "B" "C" (by decide) (by decide)

lemma any_congr_perm {l1 l2 : List String} (h : List.Perm l1 l2) (f : String → Bool) :
    l1.any f = l2.any f := by
  rw [Bool.eq_iff_iff]
  simp only [List.any_eq_true]
  constructor <;> rintro ⟨x, hx, hfx⟩
  · exact ⟨x, h.mem_iff.mp hx, hfx⟩
  · exact ⟨x, h.mem_iff.mpr hx, hfx⟩

lemma mem_paretoSet (p : ParetoSystem) (a : String) :
    a ∈ ParetoSet p ↔ a ∈ p.alts ∧ ∀ b ∈ p.alts, dominates p b a = false := by
  rw [ParetoSet, (List.perm_insertionSort _ _).mem_iff, List.mem_filter]
  simp only [Bool.not_eq_true', List.any_eq_false, Bool.not_eq_true]

lemma paretoSet_sorted (p : ParetoSystem) :
    List.Sorted (fun a b : String => a ≤ b) (ParetoSet p) :=
  List.sorted_insertionSort _ _

lemma paretoSet_perm_indep (p : ParetoSystem) (alts2 : List String)
    (h : List.Perm alts2 p.alts) :
    ParetoSet ⟨alts2, p.experts, p.rank⟩ = ParetoSet p := by
  have hdom : (fun a => ! (alts2.any (fun b =>
      dominates ⟨alts2, p.experts, p.rank⟩ b a))) =
      (fun a => ! (p.alts.any (fun b => dominates p b a))) := by
    funext a
    have heq : (fun b => dominates ⟨alts2, p.experts, p.rank⟩ b a) =
        (fun b => dominates p b a) := rfl
    rw [heq, any_congr_perm h]
  refine List.eq_of_perm_of_sorted ?_ (List.sorted_insertionSort _ _)
    (List.sorted_insertionSort _ _)
  rw [ParetoSet, ParetoSet, hdom]
  exact (List.perm_insertionSort _ _).trans
    ((h.filter _).trans (List.perm_insertionSort _ _).symm)

/-- C2: an alternative is in the extracted Pareto set exactly when no
alternative of the list dominates it; the output is sorted
lexicographically and does not depend on the declaration order of the
alternatives. -/
theorem paretoSet_characterization (p : ParetoSystem) :
    (∀ a, a ∈ ParetoSet p ↔ a ∈ p.alts ∧ ∀ b ∈ p.alts, dominates p b a = false) ∧
      List.Sorted (fun a b : String => a ≤ b) (ParetoSet p) ∧
      (∀ alts2 : List String, List.Perm alts2 p.alts →
        ParetoSet ⟨alts2, p.experts, p.rank⟩ = ParetoSet p) :=
  ⟨fun a => mem_paretoSet p a, paretoSet_sorted p,
    fun alts2 h => paretoSet_perm_indep p alts2 h⟩

theorem paretoSet_characterization_witness :
    ParetoSet ⟨["B", "A", "C"], demoPareto.experts, demoPareto.rank⟩ =
      ParetoSet demoPareto :=
  (paretoSet_characterization demoPareto).2.2 ["B", "A", "C"]
    (List.Perm.swap "A" "B" ["C"])

lemma exists_min_key (f : String → Int) :
    ∀ (l : List String), l ≠ [] → ∃ a ∈ l, ∀ b ∈ l, f a ≤ f b := by
  intro l
  induction l with
  | nil => intro h; exact absurd rfl h
  | cons a t ih =>
    intro _
    rcases eq_or_ne t [] with rfl | ht
    · exact ⟨a, by simp, by simp⟩
    · obtain ⟨m, hm, hmin⟩ := ih ht
      by_cases hcmp : f a ≤ f m
      · refine ⟨a, List.mem_cons_self a t, fun b hb => ?_⟩
        rcases List.mem_cons.mp hb with rfl | hb
        · exact le_refl _
        · exact le_trans hcmp (hmin b hb)
      · refine ⟨m, List.mem_cons_of_mem a hm, fun b hb => ?_⟩
        rcases List.mem_cons.mp hb with rfl | hb
        · exact le_of_not_le hcmp
        · exact hmin b hb

lemma dominates_sum_lt (p : ParetoSystem) (a b : String)
    (h : dominates p b a = true) :
    (p.experts.map (fun e => p.rank e b)).sum <
      (p.experts.map (fun e => p.rank e a)).sum := by
  rw [dominates_eq_true] at h
  obtain ⟨-, hle, hex⟩ := h
  exact List.sum_lt_sum _ _ hle hex

/-- C5: over a non-empty alternative list, the extracted Pareto set is
non-empty — some alternative is dominated by no other. -/
theorem paretoSet_nonempty (p : ParetoSystem) (h : p.alts ≠ []) :
    ParetoSet p ≠ [] := by
  obtain ⟨a, ha, hmin⟩ :=
    exists_min_key (fun x => (p.experts.map (fun e => p.rank e x)).sum) p.alts h
  apply List.ne_nil_of_mem (a := a)
  rw [mem_paretoSet]
  refine ⟨ha, fun b hb => ?_⟩
  rw [← Bool.not_eq_true]
  intro hdom
  exact absurd (hmin b hb) (not_le.mpr (dominates_sum_lt p a b hdom))

theorem paretoSet_nonempty_witness : ParetoSet demoPareto ≠ [] :=
  paretoSet_nonempty demoPareto (by decide)

/-- State shared by `SEM10/tpr-3/main.go` and the unnamed
Wald/MaxiMax/Hurwicz program: alternative names, the number of states,
the declared score bound, and the utility table
`outcomes[alternative]` (one value per state).  Go `float64` values are
modelled by `ℚ`; the Go map is a total function whose unset entries are
the zero value `nil`, i.e. `[]`. -/
structure UncertainDecisionSystem where
  alternatives : List String
  statesCount : Nat
  maxScore : Nat
  outcomes : String → List ℚ

/-- First loop of `CalculateSavage`: for each state `j` the running
maximum of `outcomes[alt][j]` over all alternatives, started at `0.0`.
An out-of-range access (a run-time panic in Go, excluded by the
completeness precondition) is modelled as the default `0`. -/
def maxOutcomes (u : UncertainDecisionSystem) : List ℚ :=
  (List.range u.statesCount).map (fun j =>
    u.alternatives.foldl (fun maxVal alt =>
      let val := (u.outcomes alt).getD j 0
      if val > maxVal then val else maxVal) 0)

/-- Second loop of `CalculateSavage` for one alternative: running over
the indexed entries of its outcome row, keep the largest regret
`maxOutcomes[j] - outcome`, starting from `0.0`. -/
def regretLoop (ms : List ℚ) : List ℚ → Nat → ℚ → ℚ
  | [], _, maxRegret => maxRegret
  | o :: os, j, maxRegret =>
    let regret := ms.getD j 0 - o
    regretLoop ms os (j + 1) (if regret > maxRegret then regret else maxRegret)

/-- Entry `savage[alt]` of the map returned by `CalculateSavage`. -/
def savageScore (u : UncertainDecisionSystem) (alt : String) : ℚ :=
  regretLoop (maxOutcomes u) (u.outcomes alt) 0 0

/-- Entry `laplace[alt]` of the map returned by `CalculateLaplace`:
the sum of the alternative's outcomes divided by the state count. -/
def laplaceScore (u : UncertainDecisionSystem) (alt : String) : ℚ :=
  ((u.outcomes alt).foldl (fun sum outcome => sum + outcome) 0) / (u.statesCount : ℚ)

/-- Record filled by `CalculateCriteria` of the unnamed program for one
alternative: its name, the minimum (`wald`), the maximum (`maxmax`) and
the Hurwicz blend of its outcome row. -/
structure Alternative where
  name : String
  wald : ℚ
  maxmax : ℚ
  hurwicz : ℚ

/-- Body of the `CalculateCriteria` loop for one alternative: an empty
outcome row is skipped by `continue`, leaving the zero-valued record;
otherwise `minVal` and `maxVal` both start at `data[0]`, the loop runs
over the whole row, and the Hurwicz blend is
`alpha*maxVal + (1-alpha)*minVal`. -/
def calcCriterion (alpha : ℚ) (name : String) : List ℚ → Alternative
  | [] => ⟨"", 0, 0, 0⟩
  | d :: ds =>
    let mm := (d :: ds).foldl
      (fun p v => (if v < p.1 then v else p.1, if v > p.2 then v else p.2)) (d, d)
    ⟨name, mm.1, mm.2, alpha * mm.2 + (1 - alpha) * mm.1⟩

/-- The slice returned by `CalculateCriteria`, one record per
alternative in declaration order, for the optimism coefficient
`alpha`. -/
def CalculateCriteria (u : UncertainDecisionSystem) (alpha : ℚ) : List Alternative :=
  u.alternatives.map (fun alt => calcCriterion alpha alt (u.outcomes alt))

/-- The `AltValue` record of tpr-3, used when sorting a score map. -/
structure AltValue where
  alt : String
  value : ℚ
deriving DecidableEq

/-- The sort step of tpr-3's `sortAltValues`.  The Go function first
ranges over the unordered score map; that iteration sequence is the
`arr` argument here.  `sort.Slice` with the `<` (ascending) or `>`
(descending) comparator guarantees exactly a permutation that is sorted
in the requested direction, modelled by an insertion sort on the
corresponding non-strict comparison. -/
def sortAltValues (arr : List AltValue) (ascending : Bool) : List AltValue :=
  if ascending then List.insertionSort (fun a b => a.value ≤ b.value) arr
  else List.insertionSort (fun a b => b.value ≤ a.value) arr

/-- The ranked output printed by `PrintRanking`: 1-based positions
paired with the sorted entries. -/
def rankedResult (arr : List AltValue) (ascending : Bool) : List (Nat × AltValue) :=
  (sortAltValues arr ascending).enum.map (fun p => (p.1 + 1, p.2))

/-- The utility matrix used as concrete witness data: alternatives A
with outcomes [10, 6] and B with outcomes [6, 6]. -/
def demoOutcomes (a : String) : List ℚ :=
  if a = "A" then [10, 6] else if a = "B" then [6, 6] else []

/-- A concrete two-alternative, two-state system over a 10-point
scale. -/
def demoU : UncertainDecisionSystem :=
  ⟨["A", "B"], 2, 10, demoOutcomes⟩

instance : IsTotal AltValue (fun a b => a.value ≤ b.value) :=
  ⟨fun a b => le_total a.value b.value⟩

instance : IsTrans AltValue (fun a b => a.value ≤ b.value) :=
  ⟨fun _ _ _ h1 h2 => le_trans h1 h2⟩

instance : IsTotal AltValue (fun a b => b.value ≤ a.value) :=
  ⟨fun a b => le_total b.value a.value⟩

instance : IsTrans AltValue (fun a b => b.value ≤ a.value) :=
  ⟨fun _ _ _ h1 h2 => le_trans h2 h1⟩

lemma regretLoop_ge (ms : List ℚ) :
    ∀ (os : List ℚ) (j : Nat) (acc : ℚ), acc ≤ regretLoop ms os j acc := by
  intro os
  induction os with
  | nil => intro j acc; exact le_refl acc
  | cons o t ih =>
    intro j acc
    rw [regretLoop]
    refine le_trans ?_ (ih (j + 1) _)
    dsimp only
    split_ifs with h
    · exact le_of_lt h
    · exact le_refl acc

lemma regretLoop_zero (ms : List ℚ) :
    ∀ (os : List ℚ) (j : Nat),
      (∀ k, k < os.length → os.getD k 0 = ms.getD (j + k) 0) →
      regretLoop ms os j 0 = 0 := by
  intro os
  induction os with
  | nil => intro j _; rfl
  | cons o t ih =>
    intro j hk
    have h0 : o = ms.getD j 0 := by
      have h00 := hk 0 (by simp)
      simpa using h00
    rw [regretLoop]
    have hreg : ms.getD j 0 - o = 0 := by rw [h0, sub_self]
    rw [hreg]
    have hif : (if (0:ℚ) > 0 then (0:ℚ) else 0) = 0 := by simp
    rw [hif]
    apply ih
    intro k hk2
    have hstep := hk (k + 1) (by simpa using Nat.succ_lt_succ hk2)
    have hidx : j + (k + 1) = (j + 1) + k := by omega
    rw [hidx] at hstep
    simpa using hstep

/-- C3: every Savage regret score is non-negative, and an alternative
whose outcome equals the per-state running maximum (started at 0) in
every state has Savage score exactly 0. -/
theorem savage_nonneg_and_best_zero (u : UncertainDecisionSystem)
    (hcomp : ∀ b ∈ u.alternatives, (u.outcomes b).length = u.statesCount)
    (hpos : ∀ b ∈ u.alternatives, ∀ x ∈ u.outcomes b, 0 < x) :
    (∀ b ∈ u.alternatives, 0 ≤ savageScore u b) ∧
      (∀ a ∈ u.alternatives,
        (∀ j, j < u.statesCount →
          (u.outcomes a).getD j 0 = (maxOutcomes u).getD j 0) →
        savageScore u a = 0) := by
  refine ⟨fun b _ => regretLoop_ge _ _ 0 0, fun a ha hmax => ?_⟩
  apply regretLoop_zero
  intro k hk
  rw [hcomp a ha] at hk
  simpa using hmax k hk

theorem savage_nonneg_and_best_zero_witness :
    (∀ b ∈ demoU.alternatives, 0 ≤ savageScore demoU b) ∧
      (∀ a ∈ demoU.alternatives,
        (∀ j, j < demoU.statesCount →
          (demoU.outcomes a).getD j 0 = (maxOutcomes demoU).getD j 0) →
        savageScore demoU a = 0) :=
  savage_nonneg_and_best_zero demoU (by decide) (by decide)

lemma foldl_add_const (c : ℚ) :
    ∀ (l : List ℚ), (∀ x ∈ l, x = c) →
      ∀ s : ℚ, l.foldl (fun sum outcome => sum + outcome) s = s + l.length * c := by
  intro l
  induction l with
  | nil => intro _ s; simp
  | cons x t ih =>
    intro hx s
    have hxc : x = c := hx x (by simp)
    rw [List.foldl_cons, ih (fun y hy => hx y (by simp [hy])) (s + x), hxc]
    simp only [List.length_cons]
    push_cast
    ring

/-- C9: over at least one state, an alternative whose utility is the
same constant `c` in every state has Laplace score exactly `c`. -/
theorem laplace_constant_utility (u : UncertainDecisionSystem) (a : String)
    (c : ℚ) (hst : 1 ≤ u.statesCount)
    (hlen : (u.outcomes a).length = u.statesCount)
    (hconst : ∀ x ∈ u.outcomes a, x = c) :
    laplaceScore u a = c := by
  have hne : (u.statesCount : ℚ) ≠ 0 :=
    Nat.cast_ne_zero.mpr (Nat.one_le_iff_ne_zero.mp hst)
  rw [laplaceScore, foldl_add_const c _ hconst 0, hlen, zero_add, mul_comm,
    mul_div_assoc, div_self hne, mul_one]

theorem laplace_constant_utility_witness : laplaceScore demoU "B" = 6 :=
  laplace_constant_utility demoU "B" 6 (by decide) (by decide) (by decide)

lemma minmax_fold_le (l : List ℚ) :
    ∀ p : ℚ × ℚ, p.1 ≤ p.2 →
      ((l.foldl (fun q v => (if v < q.1 then v else q.1, if v > q.2 then v else q.2)) p).1 ≤
        (l.foldl (fun q v => (if v < q.1 then v else q.1, if v > q.2 then v else q.2)) p).2) := by
  induction l with
  | nil => intro p hp; exact hp
  | cons v t ih =>
    intro p hp
    rw [List.foldl_cons]
    apply ih
    dsimp only
    split_ifs with h1 h2 h2
    · exact le_refl v
    · exact le_trans (le_of_lt h1) hp
    · exact le_trans hp (le_of_lt h2)
    · exact hp

/-- C4: every record of `CalculateCriteria` on non-empty outcome rows has
its Wald score at most its MaxiMax score, and the Hurwicz blend collapses
to the Wald score at coefficient 0 and to the MaxiMax score at 1. -/
theorem wald_maxmax_hurwicz_relations (u : UncertainDecisionSystem)
    (hst : ∀ a ∈ u.alternatives, u.outcomes a ≠ []) :
    (∀ alpha : ℚ, ∀ A ∈ CalculateCriteria u alpha, A.wald ≤ A.maxmax) ∧
      (∀ A ∈ CalculateCriteria u 0, A.hurwicz = A.wald) ∧
      (∀ A ∈ CalculateCriteria u 1, A.hurwicz = A.maxmax) := by
  refine ⟨?_, ?_, ?_⟩
  · intro alpha A hA
    rw [CalculateCriteria, List.mem_map] at hA
    obtain ⟨a, ha, rfl⟩ := hA
    rcases hdata : u.outcomes a with _ | ⟨d, ds⟩
    · exact absurd hdata (hst a ha)
    · simp only [calcCriterion]
      exact minmax_fold_le (d :: ds) (d, d) (le_refl d)
  · intro A hA
    rw [CalculateCriteria, List.mem_map] at hA
    obtain ⟨a, ha, rfl⟩ := hA
    rcases hdata : u.outcomes a with _ | ⟨d, ds⟩
    · exact absurd hdata (hst a ha)
    · simp only [calcCriterion]
      rw [zero_mul, zero_add, sub_zero, one_mul]
  · intro A hA
    rw [CalculateCriteria, List.mem_map] at hA
    obtain ⟨a, ha, rfl⟩ := hA
    rcases hdata : u.outcomes a with _ | ⟨d, ds⟩
    · exact absurd hdata (hst a ha)
    · simp only [calcCriterion]
      rw [one_mul, sub_self, zero_mul, add_zero]

theorem wald_maxmax_hurwicz_relations_witness :
    (∀ alpha : ℚ, ∀ A ∈ CalculateCriteria demoU alpha, A.wald ≤ A.maxmax) ∧
      (∀ A ∈ CalculateCriteria demoU 0, A.hurwicz = A.wald) ∧
      (∀ A ∈ CalculateCriteria demoU 1, A.hurwicz = A.maxmax) :=
  wald_maxmax_hurwicz_relations demoU (by decide)

/-- C7: the printed ranking carries positions 1..N in order, the sorted
sequence is a permutation of the accumulated score entries, and the
scores along position order are monotone in the declared direction. -/
theorem rankedResult_positions_and_monotone (arr : List AltValue) (ascending : Bool) :
    (rankedResult arr ascending).map Prod.fst = List.range' 1 arr.length ∧
      List.Perm (sortAltValues arr ascending) arr ∧
      List.Sorted (fun A B : AltValue =>
        cond ascending (A.value ≤ B.value) (B.value ≤ A.value))
        (sortAltValues arr ascending) := by
  have hperm : List.Perm (sortAltValues arr ascending) arr := by
    cases ascending <;> simp only [sortAltValues, if_true, if_false, Bool.false_eq_true] <;>
      exact List.perm_insertionSort _ _
  refine ⟨?_, hperm, ?_⟩
  · rw [rankedResult, List.map_map]
    have hcomp : (Prod.fst ∘ fun p : Nat × AltValue => (p.1 + 1, p.2)) =
        (fun n => n + 1) ∘ Prod.fst := rfl
    rw [hcomp, ← List.map_map, List.enum_map_fst, hperm.length_eq,
      List.range'_eq_map_range]
    simp [Nat.add_comm]
  · cases ascending
    · simp only [cond, sortAltValues, if_neg (by simp : ¬ (false = true))]
      exact List.sorted_insertionSort _ _
    · simp only [cond, sortAltValues, if_pos rfl]
      exact List.sorted_insertionSort _ _

/-- C8 evidence: the tpr-3 ranking consumes the sequence produced by
ranging over an unordered Go map.  Two legal iteration orders of the same
score map (both alternatives scored 1) give different output sequences,
so ties are not broken by declaration order and the output is not a
function of the score map alone. -/
theorem sortAltValues_iteration_order_dependent :
    sortAltValues [⟨"X", 1⟩, ⟨"Y", 1⟩] true ≠
      sortAltValues [⟨"Y", 1⟩, ⟨"X", 1⟩] true := by
  decide

end KpiDecision
